import Mathlib

/-!
Verification of the intelephense semantic core against its natural-language
specification.  The definitions below are a shallow embedding of the
TypeScript sources (src/typeAggregate.ts, src/visitors.ts,
src/parsedDocument.ts, src/intelephense.ts).  Parts of the repository that
are referenced but whose source file is not present (symbol.ts defining
SymbolKind, SymbolModifier, TypeString, ImportTable, SymbolTable, and
symbolStore.ts defining SymbolStore.find) are modelled from the
specification; each such definition carries a doc comment saying so.
-/

/-- Modelled from the spec: symbol kinds (symbol.ts is not in src/).  The
spec enumerates the kinds and typeAggregate.ts combines them with bitwise
operations, so each kind is a distinct bit. -/
def SymbolKind.Class : Nat := 1

/-- Modelled from the spec: the Interface kind bit. -/
def SymbolKind.Interface : Nat := 2

/-- Modelled from the spec: the Trait kind bit. -/
def SymbolKind.Trait : Nat := 4

/-- Modelled from the spec: the Constant kind bit. -/
def SymbolKind.Constant : Nat := 8

/-- Modelled from the spec: the Property kind bit. -/
def SymbolKind.Property : Nat := 16

/-- Modelled from the spec: the Method kind bit. -/
def SymbolKind.Method : Nat := 32

/-- Modelled from the spec: the Function kind bit. -/
def SymbolKind.Function : Nat := 64

/-- Modelled from the spec: the Parameter kind bit. -/
def SymbolKind.Parameter : Nat := 128

/-- Modelled from the spec: the Variable kind bit. -/
def SymbolKind.Variable : Nat := 256

/-- Modelled from the spec: the Namespace kind bit. -/
def SymbolKind.Namespace : Nat := 512

/-- The symbol kinds enumerated by the data model (spec section 3). -/
def SymbolKind.values : List Nat :=
  [SymbolKind.Class, SymbolKind.Interface, SymbolKind.Trait,
   SymbolKind.Constant, SymbolKind.Property, SymbolKind.Method,
   SymbolKind.Function, SymbolKind.Parameter, SymbolKind.Variable,
   SymbolKind.Namespace]

/-- Modelled from the spec: symbol modifiers are a bitset
(Public/Protected/Private, Static, Abstract, Final, Magic, ReadOnly,
WriteOnly, Anonymous, Use); symbol.ts is not in src/.  Each modifier is a
distinct bit. -/
def SymbolModifier.Public : Nat := 1

/-- Modelled from the spec: the Protected modifier bit. -/
def SymbolModifier.Protected : Nat := 2

/-- Modelled from the spec: the Private modifier bit. -/
def SymbolModifier.Private : Nat := 4

/-- Modelled from the spec: the Static modifier bit. -/
def SymbolModifier.Static : Nat := 8

/-- Modelled from the spec: the Abstract modifier bit. -/
def SymbolModifier.Abstract : Nat := 16

/-- Modelled from the spec: the Final modifier bit. -/
def SymbolModifier.Final : Nat := 32

/-- Modelled from the spec: the ReadOnly modifier bit. -/
def SymbolModifier.ReadOnly : Nat := 64

/-- Modelled from the spec: the WriteOnly modifier bit. -/
def SymbolModifier.WriteOnly : Nat := 128

/-- Modelled from the spec: the Magic modifier bit (members declared only
in a docblock annotation). -/
def SymbolModifier.Magic : Nat := 256

/-- Modelled from the spec: type-strings are unordered unions of atomic
type literals (symbol.ts is not in src/). -/
structure TypeString where
  atoms : List String
deriving DecidableEq, Repr

/-- Whitespace recognition for trimming. -/
def isSpaceChar (c : Char) : Bool :=
  c == ' ' || c == '\t' || c == '\n' || c == '\r'

/-- Trimming of leading and trailing whitespace, character by
character. -/
def trimString (s : String) : String :=
  String.mk (((s.toList.dropWhile isSpaceChar).reverse.dropWhile isSpaceChar).reverse)

/-- Modelled from the spec: atom normalization used by type-string
operations — trim, then strip one leading namespace separator. -/
def normalizeAtom (s : String) : String :=
  match (trimString s).toList with
  | '\\' :: rest => String.mk rest
  | _ => trimString s

/-- Splitting a character list at every union separator. -/
def splitOnPipe (l : List Char) : List (List Char) :=
  match l with
  | [] => [[]]
  | x :: xs =>
    match splitOnPipe xs with
    | [] => [[]]
    | h :: t => if x = '|' then [] :: h :: t else (x :: h) :: t

/-- Modelled from the spec: constructing a type-string from its textual
form splits the text on the union separator and normalizes each atom. -/
def TypeString.ofText (text : String) : TypeString :=
  ⟨(splitOnPipe text.toList).map (fun cs => normalizeAtom (String.mk cs))⟩

/-- Modelled from the spec: merge is the union of atoms with lexical
de-duplication after normalization. -/
def TypeString.merge (t : TypeString) (text : String) : TypeString :=
  ⟨(TypeString.ofText text).atoms.foldl
    (fun acc a => if a ∈ acc then acc else acc ++ [a]) t.atoms⟩

/-- A member of a class-like symbol (a child in the symbol tree): the
fields of PhpSymbol that the member-merging code reads.  `doc` models the
truthiness of the attached PhpDoc object, `typ` the `type` field and
`description` the docblock description. -/
structure Member where
  kind : Nat
  name : String
  modifiers : Nat
  doc : Bool
  typ : Option TypeString
  description : String
deriving DecidableEq, Repr

/-- An entry of a class-like symbol's `associated` list: a stub symbol
carrying the referenced fully-qualified name (typeAggregate.ts reads only
`stub.name`). -/
structure Stub where
  name : String
deriving DecidableEq, Repr

/-- A class-like top-level symbol as read by typeAggregate.ts: kind,
name, modifiers, the `associated` reference list and the `children`
member list. -/
structure PhpSymbol where
  kind : Nat
  name : String
  modifiers : Nat
  associated : List Stub
  children : List Member
deriving DecidableEq, Repr

/-- Modelled from the spec: PhpSymbol.isClassLike (symbol.ts is not in
src/) — the kind bit intersects Class|Interface|Trait. -/
def PhpSymbol.isClassLike (s : PhpSymbol) : Bool :=
  (s.kind &&& (SymbolKind.Class ||| SymbolKind.Interface ||| SymbolKind.Trait)) != 0

/-- The global symbol store, reduced to the part typeAggregate.ts uses:
the collection of stored class-like symbols. -/
abbrev SymbolStore := List PhpSymbol

/-- Lower-casing of a name, character by character (the kernel-reducible
counterpart of toLowerCase). -/
def lowerString (s : String) : String :=
  String.mk (s.toList.map Char.toLower)

/-- Modelled from the spec: SymbolStore.find(fqn, predicate)
(symbolStore.ts is not in src/) — return the stored symbols whose FQN
matches (class-like names compare case-insensitively) and that satisfy
the predicate. -/
def SymbolStore.find (store : SymbolStore) (name : String) (p : PhpSymbol → Bool) :
    List PhpSymbol :=
  List.filter (fun s => lowerString s.name == lowerString name && p s) store

/-- The loop of TypeAggregate._getAssociated: a breadth-first walk over
the `associated` stubs, resolving each through the store, skipping
unresolved names and symbols already collected, and expanding the queue
by each newly collected symbol's own `associated` list.  Termination:
every collected symbol comes from the finite store and is new, so the
count of store symbols not yet collected decreases; otherwise the queue
shrinks. -/
def getAssociatedLoop (store : SymbolStore) (assoc : List PhpSymbol) (queue : List Stub) :
    List PhpSymbol :=
  match queue with
  | [] => assoc
  | stub :: rest =>
    match h : (SymbolStore.find store stub.name PhpSymbol.isClassLike).head? with
    | none => getAssociatedLoop store assoc rest
    | some s =>
      if hs : s ∈ assoc then getAssociatedLoop store assoc rest
      else getAssociatedLoop store (assoc ++ [s]) (rest ++ s.associated)
termination_by ((store.toFinset \ assoc.toFinset).card, queue.length)
decreasing_by
  · apply Prod.Lex.right; simp
  · apply Prod.Lex.right; simp
  · apply Prod.Lex.left
    have hsfind : s ∈ SymbolStore.find store stub.name PhpSymbol.isClassLike := by
      cases hf : SymbolStore.find store stub.name PhpSymbol.isClassLike with
      | nil => rw [hf] at h; simp at h
      | cons y ys =>
        rw [hf] at h
        have hys : y = s := by simpa [List.head?] using h
        subst hys
        exact List.mem_cons_self y ys
    have hsstore : s ∈ store := List.mem_of_mem_filter hsfind
    apply Finset.card_lt_card
    rw [Finset.ssubset_iff_of_subset]
    · refine ⟨s, ?_, ?_⟩
      · rw [Finset.mem_sdiff, List.mem_toFinset, List.mem_toFinset]
        exact ⟨hsstore, hs⟩
      · rw [Finset.mem_sdiff, List.mem_toFinset, List.mem_toFinset]
        intro hc
        exact hc.2 (List.mem_append.mpr (Or.inr (List.mem_singleton.mpr rfl)))
    · intro x hx
      rw [Finset.mem_sdiff, List.mem_toFinset, List.mem_toFinset] at hx ⊢
      exact ⟨hx.1, fun hc => hx.2 (List.mem_append.mpr (Or.inl hc))⟩

/-- TypeAggregate._getAssociated: resolve the transitive closure of the
root's `associated` references through the store. -/
def getAssociated (store : SymbolStore) (root : PhpSymbol) : List PhpSymbol :=
  getAssociatedLoop store [] root.associated

/-- The member merge strategies of typeAggregate.ts. -/
inductive MemberMergeStrategy where
  | none
  | override
  | documented
  | base
deriving DecidableEq, Repr

/-- The state of the TypeAggregate._mergeMembers loop: the `merged`
output array and the `map` object from member name to the index at which
that name was first pushed. -/
structure MergeState where
  merged : List Member
  map : List (String × Nat)
deriving DecidableEq, Repr

/-- Lookup in the string-keyed map object (each key is inserted at most
once, so first match suffices). -/
def mapLookup (m : List (String × Nat)) (k : String) : Option Nat :=
  (m.find? (fun e => e.1 == k)).map (fun e => e.2)

/-- One iteration of the TypeAggregate._mergeMembers loop: an unseen name
is pushed and recorded in the map; a seen name replaces the kept member
when the kept one is magic and the new one is not, or (Documented) the
kept one has no doc and the new one does, or the strategy is Base. -/
def mergeStep (strategy : MemberMergeStrategy) (st : MergeState) (s : Member) :
    MergeState :=
  match mapLookup st.map s.name with
  | Option.none =>
    { merged := st.merged ++ [s], map := st.map ++ [(s.name, st.merged.length)] }
  | Option.some index =>
    match st.merged[index]? with
    | Option.none => st
    | Option.some kept =>
      if (kept.modifiers &&& SymbolModifier.Magic ≠ 0 ∧
            s.modifiers &&& SymbolModifier.Magic = 0) ∨
          (strategy = MemberMergeStrategy.documented ∧ kept.doc = false ∧ s.doc = true) ∨
          strategy = MemberMergeStrategy.base
      then { merged := st.merged.set index s, map := st.map }
      else st

/-- TypeAggregate._mergeMembers: the None strategy returns the input
unchanged; the others run the merge loop. -/
def mergeMembers (symbols : List Member) (strategy : MemberMergeStrategy) :
    List Member :=
  if strategy = MemberMergeStrategy.none then symbols
  else (symbols.foldl (mergeStep strategy) ⟨[], []⟩).merged

/-- Evaluation of the `noPrivate` closure of TypeAggregate._classMembers
at the point where it is actually invoked.  The closure reads the
`predicate` variable, which by then has been reassigned to `noPrivate`
itself, so a private member short-circuits to false while a non-private
member re-enters the closure with the same argument; the fuel counts the
remaining call depth, `none` meaning the call never returns. -/
def noPrivateEval (m : Member) : Nat → Option Bool
  | 0 => Option.none
  | Nat.succ fuel =>
    if m.modifiers &&& SymbolModifier.Private ≠ 0 then Option.some false
    else noPrivateEval m fuel

/-- children.filter(noPrivate): `none` when evaluating the predicate on
some element never returns. -/
def filterNoPrivate (l : List Member) (fuel : Nat) : Option (List Member) :=
  match l with
  | [] => Option.some []
  | m :: t =>
    match noPrivateEval m fuel with
    | Option.none => Option.none
    | Option.some b =>
      match filterNoPrivate t fuel with
      | Option.none => Option.none
      | Option.some r => Option.some (if b then m :: r else r)

/-- The conditional filter `predicate ? children.filter(predicate) :
children` applied where a caller-supplied predicate may be absent. -/
def applyPred (pred : Option (Member → Bool)) (children : List Member) : List Member :=
  match pred with
  | Option.none => children
  | Option.some p => children.filter p

/-- The walk of TypeAggregate._classMembers over the associated array
(root first): traits are collected separately; the first element is
filtered with the caller's predicate, every later element with the
`noPrivate` closure (the `predicate` variable is reassigned after each
iteration).  Returns the gathered members and the collected traits. -/
def collectClassMembers (assoc : List PhpSymbol) (first : Bool)
    (pred : Option (Member → Bool)) (fuel : Nat) :
    Option (List Member × List PhpSymbol) :=
  match assoc with
  | [] => Option.some ([], [])
  | s :: rest =>
    if s.kind == SymbolKind.Trait then
      match collectClassMembers rest false pred fuel with
      | Option.none => Option.none
      | Option.some (ms, ts) => Option.some (ms, s :: ts)
    else
      match (if first then Option.some (applyPred pred s.children)
             else filterNoPrivate s.children fuel) with
      | Option.none => Option.none
      | Option.some f =>
        match collectClassMembers rest false pred fuel with
        | Option.none => Option.none
        | Option.some (ms, ts) => Option.some (f ++ ms, ts)

/-- TypeAggregate._interfaceMembers: concatenate the children of every
symbol in the list, each filtered by the predicate when one is given. -/
def interfaceMembers (interfaces : List PhpSymbol) (pred : Option (Member → Bool)) :
    List Member :=
  match interfaces with
  | [] => []
  | s :: rest => applyPred pred s.children ++ interfaceMembers rest pred

/-- TypeAggregate._traitMembers as called at the end of _classMembers:
the predicate there is the `noPrivate` closure, so each trait's children
go through the fuelled evaluation. -/
def traitMembersNoPrivate (traits : List PhpSymbol) (fuel : Nat) :
    Option (List Member) :=
  match traits with
  | [] => Option.some []
  | s :: rest =>
    match filterNoPrivate s.children fuel with
    | Option.none => Option.none
    | Option.some f =>
      match traitMembersNoPrivate rest fuel with
      | Option.none => Option.none
      | Option.some ms => Option.some (f ++ ms)

/-- TypeAggregate._classMembers: walk the associated array, merge the
class-chain members under the strategy, and append the trait members
(filtered by the `noPrivate` closure). -/
def classMembers (assoc : List PhpSymbol) (strategy : MemberMergeStrategy)
    (pred : Option (Member → Bool)) (fuel : Nat) : Option (List Member) :=
  match collectClassMembers assoc true pred fuel with
  | Option.none => Option.none
  | Option.some (ms, traits) =>
    match traitMembersNoPrivate traits fuel with
    | Option.none => Option.none
    | Option.some tms => Option.some (mergeMembers ms strategy ++ tms)

/-- TypeAggregate.members: prepend the root to its associated list and
dispatch on the root's kind — classes merge, interfaces and traits
concatenate, anything else yields the empty list. -/
def TypeAggregate.members (store : SymbolStore) (root : PhpSymbol)
    (strategy : MemberMergeStrategy) (pred : Option (Member → Bool)) (fuel : Nat) :
    Option (List Member) :=
  let assoc := root :: getAssociated store root
  if root.kind == SymbolKind.Class then classMembers assoc strategy pred fuel
  else if root.kind == SymbolKind.Interface then
    Option.some (interfaceMembers assoc pred)
  else if root.kind == SymbolKind.Trait then
    Option.some (interfaceMembers assoc pred)
  else Option.some []

/-- The TypeAggregate constructor: a null symbol or one whose kind has no
Class/Interface/Trait bit throws "Invalid Argument"; otherwise the
aggregate is created. -/
def TypeAggregate.construct (store : SymbolStore) (symbol : Option PhpSymbol) :
    Except String (SymbolStore × PhpSymbol) :=
  match symbol with
  | Option.none => Except.error "Invalid Argument"
  | Option.some s =>
    if s.kind &&& (SymbolKind.Class ||| SymbolKind.Interface ||| SymbolKind.Trait) = 0
    then Except.error "Invalid Argument"
    else Except.ok (store, s)

/-- Modelled from php7parser's public interface: the UseClass statement
flag (the parser is an external collaborator; only distinctness of the
flag values matters). -/
def NonTerminalFlag.UseClass : Nat := 1

/-- Modelled from php7parser's public interface: the UseFunction flag. -/
def NonTerminalFlag.UseFunction : Nat := 2

/-- Modelled from php7parser's public interface: the UseConstant flag. -/
def NonTerminalFlag.UseConstant : Nat := 3

/-- An import rule as built by ImportTableReader._postOrderUseElement:
kind, target FQN and the alias token's text (null when no alias was
written). -/
structure ImportRule where
  kind : Nat
  fqn : String
  name : Option String
deriving DecidableEq, Repr

/-- An import-table entry: alias name, target FQN and kind (spec:
"Import rule — an alias in a document's import table"). -/
structure ResolvedImportRule where
  aliasName : String
  fqn : String
  kind : Nat
deriving DecidableEq, Repr

/-- Modelled from the spec: the per-document import table (symbol.ts is
not in src/), a mapping from alias to target FQN and kind. -/
structure ImportTable where
  rules : List ResolvedImportRule
deriving DecidableEq, Repr

/-- The last namespace segment of a name: the characters after the final
backslash (the whole name when it has none). -/
def lastSegment (s : String) : String :=
  String.mk ((s.toList.reverse.takeWhile (fun c => c ≠ '\\')).reverse)

/-- Modelled from the spec: ImportTable.addRule (symbol.ts is not in
src/) — a rule with no written alias is registered under the element's
own name, the last segment of its FQN. -/
def ImportTable.addRule (t : ImportTable) (r : ImportRule) : ImportTable :=
  ⟨t.rules ++ [⟨(match r.name with
      | Option.some n => n
      | Option.none => lastSegment r.fqn), r.fqn, r.kind⟩]⟩

/-- Modelled from the spec: ImportTable.addRuleMany adds each rule in
order. -/
def ImportTable.addRuleMany (t : ImportTable) (rs : List ImportRule) : ImportTable :=
  rs.foldl ImportTable.addRule t

/-- The import-table entry produced by registering one import rule: the
written alias when present, otherwise the element's own (last) name. -/
def resolveRule (r : ImportRule) : ResolvedImportRule :=
  ⟨(match r.name with
     | Option.some n => n
     | Option.none => lastSegment r.fqn), r.fqn, r.kind⟩

/-- ImportTableReader._useFlagToSymbolKind: map a use-statement flag to a
symbol kind, zero when the flag is none of the three. -/
def useFlagToSymbolKind (flag : Nat) : Nat :=
  if flag == NonTerminalFlag.UseClass then SymbolKind.Class
  else if flag == NonTerminalFlag.UseConstant then SymbolKind.Constant
  else if flag == NonTerminalFlag.UseFunction then SymbolKind.Function
  else 0

/-- ImportTableReader._postOrderUseElement: with a truthy FQN on the
stack, push an import rule carrying the element's own flag kind, the FQN
and the alias text; otherwise push null (dropped by _postOrderUseList). -/
def postOrderUseElement (fqn : Option String) (aliasText : Option String)
    (flag : Nat) : Option ImportRule :=
  match fqn with
  | Option.none => Option.none
  | Option.some f =>
    if f = "" then Option.none
    else Option.some ⟨useFlagToSymbolKind flag, f, aliasText⟩

/-- ImportTableReader._postOrderUseGroup: prepend the truthy group prefix
to each rule's FQN, overwrite each rule's kind with the statement-level
kind when that is non-zero, and add all rules to the import table. -/
def postOrderUseGroup (pfx : Option String) (list : List ImportRule)
    (flag : Nat) (table : ImportTable) : ImportTable :=
  let kind := useFlagToSymbolKind flag
  let list2 := list.map (fun r =>
    let r1 := match pfx with
      | Option.none => r
      | Option.some p => if p = "" then r else { r with fqn := p ++ "\\" ++ r.fqn }
    if kind ≠ 0 then { r1 with kind := kind } else r1)
  table.addRuleMany list2

/-- A docblock tag as produced by the docblock parser: tag name, subject
name, type text and description (parse.ts is an external input to
visitors.ts). -/
structure Tag where
  tagName : String
  name : String
  typeString : String
  description : String
deriving DecidableEq, Repr

/-- A parsed docblock: summary plus tags. -/
structure PhpDoc where
  summary : String
  tags : List Tag
deriving DecidableEq, Repr

/-- The paramMap of SymbolReader._assignFunctionOrMethodPhpDoc: the map
object is filled with `paramMap[param.name] = param` in order, so a
lookup yields the last parameter with the sought name; this returns its
index. -/
def lastParamIdx : List Member → String → Option Nat
  | [], _ => Option.none
  | p :: rest, n =>
    match lastParamIdx rest n with
    | Option.some i => Option.some (i + 1)
    | Option.none => if p.name == n then Option.some 0 else Option.none

/-- Set-or-union of a possibly undefined type with a tag's type text:
`undefined` becomes the tag's type, anything else merges with it
(the ternary in _assignFunctionOrMethodPhpDoc). -/
def setOrMerge (t : Option TypeString) (text : String) : Option TypeString :=
  match t with
  | Option.none => Option.some (TypeString.ofText text)
  | Option.some t0 => Option.some (t0.merge text)

/-- The update a matched @param tag performs on its parameter: set the
description and set-or-union the type. -/
def paramTagStep (q : Member) (tag : Tag) : Member :=
  { q with description := tag.description, typ := setOrMerge q.typ tag.typeString }

/-- The update an @return tag performs on the function symbol:
set-or-union the result type. -/
def returnTagStep (q : Member) (tag : Tag) : Member :=
  { q with typ := setOrMerge q.typ tag.typeString }

/-- One iteration of the tag loop of
SymbolReader._assignFunctionOrMethodPhpDoc: an @param tag whose name is
in the paramMap updates that parameter's description and type; an
@return tag updates the function symbol's type; other tags do nothing. -/
def applyDocTag (st : Member × List Member) (tag : Tag) : Member × List Member :=
  let s := st.1
  let params := st.2
  if tag.tagName = "@param" then
    match lastParamIdx params tag.name with
    | Option.none => (s, params)
    | Option.some i =>
      match params[i]? with
      | Option.none => (s, params)
      | Option.some p =>
        (s, params.set i { p with description := tag.description,
                                  typ := setOrMerge p.typ tag.typeString })
  else if tag.tagName = "@return" then
    ({ s with typ := setOrMerge s.typ tag.typeString }, params)
  else (s, params)

/-- SymbolReader._assignFunctionOrMethodPhpDoc: with a parsed docblock,
set the symbol's description to the summary and run the tag loop over
the parameter list. -/
def assignFunctionOrMethodPhpDoc (s : Member) (params : List Member)
    (doc : Option PhpDoc) : Member × List Member :=
  match doc with
  | Option.none => (s, params)
  | Option.some phpDoc =>
    phpDoc.tags.foldl applyDocTag ({ s with description := phpDoc.summary }, params)

/-- A parsed document, reduced to the fields the store logic reads. -/
structure ParsedDocument where
  uri : String
  text : String
deriving DecidableEq, Repr

/-- ParsedDocumentStore: the uri-keyed document map plus the keys of the
unsubscribe map (remove deletes only the document entry; the unsubscribe
key stays behind, as in the source). -/
structure ParsedDocumentStore where
  parsedDocumentMap : List (String × ParsedDocument)
  unsubscribeKeys : List String
deriving DecidableEq, Repr

/-- ParsedDocumentStore.has: the uri is a key of the document map. -/
def ParsedDocumentStore.has (st : ParsedDocumentStore) (uri : String) : Bool :=
  (st.parsedDocumentMap.find? (fun e => e.1 == uri)).isSome

/-- ParsedDocumentStore.add: a present uri throws "Duplicate key" before
any mutation; otherwise the document is registered and its change event
subscribed. -/
def ParsedDocumentStore.add (st : ParsedDocumentStore) (d : ParsedDocument) :
    Except String ParsedDocumentStore :=
  if st.has d.uri then Except.error "Duplicate key"
  else Except.ok
    { parsedDocumentMap := st.parsedDocumentMap ++ [(d.uri, d)],
      unsubscribeKeys :=
        if d.uri ∈ st.unsubscribeKeys then st.unsubscribeKeys
        else st.unsubscribeKeys ++ [d.uri] }

/-- ParsedDocumentStore.remove: absent uris return with no change;
otherwise the document entry is deleted (the unsubscribe key is not). -/
def ParsedDocumentStore.remove (st : ParsedDocumentStore) (uri : String) :
    ParsedDocumentStore :=
  if st.has uri then
    { st with parsedDocumentMap := st.parsedDocumentMap.filter (fun e => e.1 ≠ uri) }
  else st

/-- ParsedDocumentStore.find. -/
def ParsedDocumentStore.findDoc (st : ParsedDocumentStore) (uri : String) :
    Option ParsedDocument :=
  (st.parsedDocumentMap.find? (fun e => e.1 == uri)).map (fun e => e.2)

/-- Modelled from the spec: a per-document symbol table (symbol.ts is not
in src/); only its uri matters to the engine-level claims. -/
structure SymbolTable where
  uri : String
  text : String
deriving DecidableEq, Repr

/-- Modelled from the spec: SymbolTable.create reads a document's symbol
tree (symbol.ts is not in src/); the claims need only that it is a
function of the parsed document. -/
def SymbolTable.create (d : ParsedDocument) : SymbolTable :=
  ⟨d.uri, d.text⟩

/-- Modelled from the spec: the table-level view of the symbol store used
by intelephense.ts (add/remove per document uri). -/
structure SymbolStoreTables where
  tables : List SymbolTable
deriving DecidableEq, Repr

/-- Modelled from the spec: SymbolStore.remove(uri) drops the symbols
registered under the uri. -/
def SymbolStoreTables.remove (st : SymbolStoreTables) (uri : String) :
    SymbolStoreTables :=
  ⟨st.tables.filter (fun t => t.uri ≠ uri)⟩

/-- Modelled from the spec: SymbolStore.add(table) registers a document's
symbol table. -/
def SymbolStoreTables.add (st : SymbolStoreTables) (t : SymbolTable) :
    SymbolStoreTables :=
  ⟨st.tables ++ [t]⟩

/-- The diagnostics provider, reduced to the set of documents it holds. -/
structure DiagnosticsProvider where
  docs : List String
deriving DecidableEq, Repr

/-- The module-level state of the Intelephense namespace that
openDocument touches. -/
structure IntelephenseState where
  documentStore : ParsedDocumentStore
  symbolStore : SymbolStoreTables
  diagnosticsProvider : DiagnosticsProvider
deriving DecidableEq, Repr

/-- An LSP text-document item. -/
structure TextDocumentItem where
  uri : String
  languageId : String
  text : String
deriving DecidableEq, Repr

/-- Intelephense.openDocument: a non-php languageId or an already open
uri returns immediately; otherwise the document is parsed and added, its
symbol table created and registered (remove before add), and the
document handed to the diagnostics provider. -/
def Intelephense.openDocument (st : IntelephenseState)
    (textDocument : TextDocumentItem) : IntelephenseState :=
  if textDocument.languageId != "php" || st.documentStore.has textDocument.uri then st
  else
    let parsedDocument : ParsedDocument := ⟨textDocument.uri, textDocument.text⟩
    let ds := match st.documentStore.add parsedDocument with
      | Except.ok s => s
      | Except.error _ => st.documentStore
    let symbolTable := SymbolTable.create parsedDocument
    let ss := (st.symbolStore.remove symbolTable.uri).add symbolTable
    { documentStore := ds, symbolStore := ss,
      diagnosticsProvider := ⟨st.diagnosticsProvider.docs ++ [parsedDocument.uri]⟩ }

theorem getAssociatedLoop_nil (store : SymbolStore) (assoc : List PhpSymbol) :
    getAssociatedLoop store assoc [] = assoc := by
  rw [getAssociatedLoop.eq_def]

theorem getAssociatedLoop_cons_none (store : SymbolStore) (assoc : List PhpSymbol)
    (stub : Stub) (rest : List Stub)
    (h : (SymbolStore.find store stub.name PhpSymbol.isClassLike).head? = Option.none) :
    getAssociatedLoop store assoc (stub :: rest) = getAssociatedLoop store assoc rest := by
  rw [getAssociatedLoop.eq_def]
  split
  · rename_i heq
    simp at heq
  · rename_i stub2 rest2 heq
    injection heq with h1 h2
    subst h1
    subst h2
    split
    · rfl
    · rename_i s2 heq2
      rw [h] at heq2
      simp at heq2

theorem getAssociatedLoop_cons_mem (store : SymbolStore) (assoc : List PhpSymbol)
    (stub : Stub) (rest : List Stub) (s : PhpSymbol)
    (h : (SymbolStore.find store stub.name PhpSymbol.isClassLike).head? = Option.some s)
    (hs : s ∈ assoc) :
    getAssociatedLoop store assoc (stub :: rest) = getAssociatedLoop store assoc rest := by
  rw [getAssociatedLoop.eq_def]
  split
  · rename_i heq
    simp at heq
  · rename_i stub2 rest2 heq
    injection heq with h1 h2
    subst h1
    subst h2
    split
    · rename_i heq2
      simp [h] at heq2
    · rename_i s2 heq2
      rw [h] at heq2
      cases heq2
      simp [hs]

theorem getAssociatedLoop_cons_new (store : SymbolStore) (assoc : List PhpSymbol)
    (stub : Stub) (rest : List Stub) (s : PhpSymbol)
    (h : (SymbolStore.find store stub.name PhpSymbol.isClassLike).head? = Option.some s)
    (hs : s ∉ assoc) :
    getAssociatedLoop store assoc (stub :: rest)
      = getAssociatedLoop store (assoc ++ [s]) (rest ++ s.associated) := by
  rw [getAssociatedLoop.eq_def]
  split
  · rename_i heq
    simp at heq
  · rename_i stub2 rest2 heq
    injection heq with h1 h2
    subst h1
    subst h2
    split
    · rename_i heq2
      simp [h] at heq2
    · rename_i s2 heq2
      rw [h] at heq2
      cases heq2
      simp [hs]

theorem head?_mem_of_eq {α : Type} {l : List α} {a : α} (h : l.head? = some a) :
    a ∈ l := by
  cases l with
  | nil => simp at h
  | cons x xs =>
    have hx : x = a := by simpa [List.head?] using h
    subst hx
    exact List.mem_cons_self x xs

theorem getAssociatedLoop_invariant (store : SymbolStore) (assoc : List PhpSymbol)
    (queue : List Stub) (hnd : assoc.Nodup)
    (hcl : ∀ x ∈ assoc, PhpSymbol.isClassLike x = true) :
    (getAssociatedLoop store assoc queue).Nodup
      ∧ ∀ x ∈ getAssociatedLoop store assoc queue, PhpSymbol.isClassLike x = true := by
  revert hnd hcl
  induction assoc, queue using getAssociatedLoop.induct store with
  | case1 assoc =>
    intro hnd hcl
    simpa [getAssociatedLoop_nil] using ⟨hnd, hcl⟩
  | case2 assoc stub rest h ih =>
    intro hnd hcl
    rw [getAssociatedLoop_cons_none store assoc stub rest h]
    exact ih hnd hcl
  | case3 assoc stub rest s h hs ih =>
    intro hnd hcl
    rw [getAssociatedLoop_cons_mem store assoc stub rest s h hs]
    exact ih hnd hcl
  | case4 assoc stub rest s h hs ih =>
    intro hnd hcl
    rw [getAssociatedLoop_cons_new store assoc stub rest s h hs]
    apply ih
    · simp [List.nodup_append, hnd, hs]
    · intro x hx
      rcases List.mem_append.mp hx with hx | hx
      · exact hcl x hx
      · have hmem := head?_mem_of_eq h
        simp only [SymbolStore.find, List.mem_filter] at hmem
        simp only [List.mem_singleton] at hx
        subst hx
        exact (Bool.and_eq_true _ _ |>.mp hmem.2).2

/-- Claim C3: for every symbol store — including one whose associated
links form a cycle — computing a TypeAggregate's associated set
terminates (getAssociated is a total function, accepted by well-founded
recursion on the count of store symbols not yet collected) and returns a
list in which each resolved class-like symbol appears at most once; a
back edge to an already-collected symbol is skipped, never followed.
The last conjunct runs the walk on the concrete cycle A extends B
extends A and shows it terminates with each symbol listed once. -/
theorem c3_associated_set_terminates_nodup :
    (∀ (store : SymbolStore) (root : PhpSymbol),
      (getAssociated store root).Nodup
        ∧ ∀ x ∈ getAssociated store root, PhpSymbol.isClassLike x = true)
    ∧ getAssociated
        [⟨SymbolKind.Class, "A", 0, [⟨"B"⟩], []⟩, ⟨SymbolKind.Class, "B", 0, [⟨"A"⟩], []⟩]
        ⟨SymbolKind.Class, "A", 0, [⟨"B"⟩], []⟩
      = [⟨SymbolKind.Class, "B", 0, [⟨"A"⟩], []⟩, ⟨SymbolKind.Class, "A", 0, [⟨"B"⟩], []⟩] := by
  constructor
  · intro store root
    exact getAssociatedLoop_invariant store [] root.associated (by simp) (by simp)
  · rw [getAssociated]
    rw [getAssociatedLoop_cons_new (s := ⟨SymbolKind.Class, "B", 0, [⟨"A"⟩], []⟩)
      _ _ _ _ (by decide) (by decide)]
    simp only [List.nil_append, List.cons_append]
    rw [getAssociatedLoop_cons_new (s := ⟨SymbolKind.Class, "A", 0, [⟨"B"⟩], []⟩)
      _ _ _ _ (by decide) (by decide)]
    simp only [List.nil_append, List.cons_append]
    rw [getAssociatedLoop_cons_mem (s := ⟨SymbolKind.Class, "B", 0, [⟨"A"⟩], []⟩)
      _ _ _ _ (by decide) (by decide)]
    rw [getAssociatedLoop_nil]

/-- Claim C1: for every merge strategy other than None, when the merge
loop of TypeAggregate.members meets a member whose name was already
kept, and the kept member carries the Magic modifier while the new one
does not, the non-magic member replaces the magic one in the merged
result, regardless of strategy — both as a property of one loop
iteration (first conjunct) and of _mergeMembers on a magic/non-magic
pair of the same name (second conjunct). -/
theorem c1_nonmagic_replaces_magic (strategy : MemberMergeStrategy)
    (hstrat : strategy ≠ MemberMergeStrategy.none) :
    (∀ (st : MergeState) (s kept : Member) (i : Nat),
       mapLookup st.map s.name = Option.some i →
       st.merged[i]? = Option.some kept →
       kept.modifiers &&& SymbolModifier.Magic ≠ 0 →
       s.modifiers &&& SymbolModifier.Magic = 0 →
       (mergeStep strategy st s).merged = st.merged.set i s)
    ∧ (∀ a b : Member, a.name = b.name →
       a.modifiers &&& SymbolModifier.Magic ≠ 0 →
       b.modifiers &&& SymbolModifier.Magic = 0 →
       mergeMembers [a, b] strategy = [b]) := by
  constructor
  · intro st s kept i hl hg hmagic hplain
    unfold mergeStep
    rw [hl]
    dsimp only
    rw [hg]
    dsimp only
    rw [if_pos (Or.inl ⟨hmagic, hplain⟩)]
  · intro a b hname hmagic hplain
    unfold mergeMembers
    rw [if_neg hstrat]
    simp only [List.foldl_cons, List.foldl_nil]
    have h1 : mergeStep strategy ⟨[], []⟩ a
        = ⟨[a], [(a.name, 0)]⟩ := by
      unfold mergeStep
      simp [mapLookup]
    rw [h1]
    unfold mergeStep
    simp [mapLookup, hname, hmagic, hplain]

/-- Witness for C1: the Override strategy replacing a kept magic
property by the later declared non-magic property of the same name. -/
theorem c1_witness :
    (mergeStep MemberMergeStrategy.override
        ⟨[⟨SymbolKind.Property, "m", SymbolModifier.Magic, false, Option.none, ""⟩],
         [("m", 0)]⟩
        ⟨SymbolKind.Property, "m", SymbolModifier.Public, false, Option.none, ""⟩).merged
      = [⟨SymbolKind.Property, "m", SymbolModifier.Magic, false, Option.none, ""⟩].set 0
          ⟨SymbolKind.Property, "m", SymbolModifier.Public, false, Option.none, ""⟩
    ∧ mergeMembers
        [⟨SymbolKind.Property, "m", SymbolModifier.Magic, false, Option.none, ""⟩,
         ⟨SymbolKind.Property, "m", SymbolModifier.Public, false, Option.none, ""⟩]
        MemberMergeStrategy.override
      = [⟨SymbolKind.Property, "m", SymbolModifier.Public, false, Option.none, ""⟩] := by
  have h := c1_nonmagic_replaces_magic MemberMergeStrategy.override (by decide)
  exact ⟨h.1
      ⟨[⟨SymbolKind.Property, "m", SymbolModifier.Magic, false, Option.none, ""⟩], [("m", 0)]⟩
      ⟨SymbolKind.Property, "m", SymbolModifier.Public, false, Option.none, ""⟩
      ⟨SymbolKind.Property, "m", SymbolModifier.Magic, false, Option.none, ""⟩
      0 (by decide) (by decide) (by decide) (by decide),
    h.2
      ⟨SymbolKind.Property, "m", SymbolModifier.Magic, false, Option.none, ""⟩
      ⟨SymbolKind.Property, "m", SymbolModifier.Public, false, Option.none, ""⟩
      (by decide) (by decide) (by decide)⟩

/-- Claim C4: constructing a TypeAggregate from a null symbol, or from a
symbol whose kind is any enumerated kind other than Class, Interface or
Trait, throws "Invalid Argument" immediately, while constructing one from
a class-like symbol succeeds. -/
theorem c4_construct_fails_fast (store : SymbolStore) (s : PhpSymbol) :
    TypeAggregate.construct store Option.none = Except.error "Invalid Argument"
    ∧ (s.kind = SymbolKind.Class ∨ s.kind = SymbolKind.Interface ∨ s.kind = SymbolKind.Trait →
        TypeAggregate.construct store (Option.some s) = Except.ok (store, s))
    ∧ (s.kind ∈ SymbolKind.values →
        s.kind ≠ SymbolKind.Class → s.kind ≠ SymbolKind.Interface → s.kind ≠ SymbolKind.Trait →
        TypeAggregate.construct store (Option.some s) = Except.error "Invalid Argument") := by
  refine ⟨rfl, ?_, ?_⟩
  · intro h
    unfold TypeAggregate.construct
    dsimp only
    rcases h with h | h | h <;>
      rw [h] <;> rw [if_neg (by decide)]
  · intro hmem h1 h2 h3
    unfold TypeAggregate.construct
    dsimp only
    simp only [SymbolKind.values, List.mem_cons, List.not_mem_nil, or_false] at hmem
    rcases hmem with h | h | h | h | h | h | h | h | h | h <;>
      first
        | exact absurd h h1
        | exact absurd h h2
        | exact absurd h h3
        | (rw [h]; rw [if_pos (by decide)])

/-- Witness for C4: a null symbol and a Method-kind symbol are rejected,
a Class-kind symbol is accepted. -/
theorem c4_witness :
    TypeAggregate.construct [] Option.none = Except.error "Invalid Argument"
    ∧ TypeAggregate.construct []
        (Option.some ⟨SymbolKind.Class, "C", 0, [], []⟩)
      = Except.ok ([], ⟨SymbolKind.Class, "C", 0, [], []⟩)
    ∧ TypeAggregate.construct []
        (Option.some ⟨SymbolKind.Method, "m", 0, [], []⟩)
      = Except.error "Invalid Argument" := by
  have h1 := c4_construct_fails_fast [] ⟨SymbolKind.Class, "C", 0, [], []⟩
  have h2 := c4_construct_fails_fast [] ⟨SymbolKind.Method, "m", 0, [], []⟩
  exact ⟨h1.1, h1.2.1 (Or.inl rfl),
    h2.2.2 (by simp [SymbolKind.values, SymbolKind.Method]) (by decide) (by decide) (by decide)⟩

theorem find?_filter_ne_none (l : List (String × ParsedDocument)) (uri : String) :
    (l.filter (fun e => e.1 ≠ uri)).find? (fun e => e.1 == uri) = Option.none := by
  induction l with
  | nil => rfl
  | cons e rest ih =>
    by_cases he : e.1 = uri
    · simp [List.filter_cons, he, ih]
    · simp [List.filter_cons, he, List.find?_cons, ih]

/-- Claim C9: adding a document whose URI is already present raises
"Duplicate key" (before any mutation, so the store is unchanged), and
after removing that URI the add succeeds and the document is found. -/
theorem c9_duplicate_add_raises (st : ParsedDocumentStore) (d : ParsedDocument)
    (h : st.has d.uri = true) :
    st.add d = Except.error "Duplicate key"
    ∧ ∃ st2, (st.remove d.uri).add d = Except.ok st2
        ∧ st2.findDoc d.uri = Option.some d := by
  constructor
  · unfold ParsedDocumentStore.add
    rw [if_pos h]
  · have hhas : (st.remove d.uri).has d.uri = false := by
      unfold ParsedDocumentStore.remove
      rw [if_pos h]
      unfold ParsedDocumentStore.has
      simp only [find?_filter_ne_none, Option.isSome_none]
    refine ⟨{ parsedDocumentMap := (st.remove d.uri).parsedDocumentMap ++ [(d.uri, d)],
              unsubscribeKeys :=
                if d.uri ∈ (st.remove d.uri).unsubscribeKeys
                then (st.remove d.uri).unsubscribeKeys
                else (st.remove d.uri).unsubscribeKeys ++ [d.uri] }, ?_, ?_⟩
    · simp only [ParsedDocumentStore.add, hhas]
      simp
    · unfold ParsedDocumentStore.findDoc
      unfold ParsedDocumentStore.remove
      rw [if_pos h]
      simp only [List.find?_append, find?_filter_ne_none, Option.none_or]
      simp [List.find?_cons]

/-- Witness for C9: a store holding uri "a" rejects a second add of "a";
after remove, the add succeeds. -/
theorem c9_witness :
    ParsedDocumentStore.add ⟨[("a", ⟨"a", "x"⟩)], ["a"]⟩ ⟨"a", "y"⟩
      = Except.error "Duplicate key"
    ∧ ∃ st2,
        ParsedDocumentStore.add
          (ParsedDocumentStore.remove ⟨[("a", ⟨"a", "x"⟩)], ["a"]⟩ "a") ⟨"a", "y"⟩
          = Except.ok st2
        ∧ st2.findDoc "a" = Option.some ⟨"a", "y"⟩ :=
  c9_duplicate_add_raises ⟨[("a", ⟨"a", "x"⟩)], ["a"]⟩ ⟨"a", "y"⟩ (by decide)

/-- Claim C10: Intelephense.openDocument is a no-op when the offered
document's languageId is not "php" or its URI is already in the document
store — the whole engine state (document store, symbol store,
diagnostics provider) is returned unchanged and no symbol table is
created. -/
theorem c10_openDocument_noop (st : IntelephenseState) (doc : TextDocumentItem)
    (h : doc.languageId ≠ "php" ∨ st.documentStore.has doc.uri = true) :
    Intelephense.openDocument st doc = st := by
  unfold Intelephense.openDocument
  rcases h with h | h
  · have hb : (doc.languageId != "php") = true := by
      simp [bne_iff_ne, h]
    rw [hb]
    simp
  · rw [h]
    simp

/-- Witness for C10: opening an html document, and re-opening an already
open uri, both leave the concrete engine state untouched. -/
theorem c10_witness :
    Intelephense.openDocument ⟨⟨[], []⟩, ⟨[]⟩, ⟨[]⟩⟩ ⟨"u", "html", "t"⟩
      = ⟨⟨[], []⟩, ⟨[]⟩, ⟨[]⟩⟩
    ∧ Intelephense.openDocument ⟨⟨[("u", ⟨"u", "t"⟩)], ["u"]⟩, ⟨[]⟩, ⟨[]⟩⟩ ⟨"u", "php", "t"⟩
      = ⟨⟨[("u", ⟨"u", "t"⟩)], ["u"]⟩, ⟨[]⟩, ⟨[]⟩⟩ :=
  ⟨c10_openDocument_noop ⟨⟨[], []⟩, ⟨[]⟩, ⟨[]⟩⟩ ⟨"u", "html", "t"⟩ (Or.inl (by decide)),
   c10_openDocument_noop ⟨⟨[("u", ⟨"u", "t"⟩)], ["u"]⟩, ⟨[]⟩, ⟨[]⟩⟩ ⟨"u", "php", "t"⟩
     (Or.inr (by decide))⟩

theorem interfaceMembers_no_predicate (ifaces : List PhpSymbol) :
    interfaceMembers ifaces Option.none = (ifaces.map PhpSymbol.children).flatten := by
  induction ifaces with
  | nil => rfl
  | cons s rest ih =>
    rw [interfaceMembers, ih]
    simp [applyPred, List.flatten_cons]

/-- Claim C6: for a root symbol of kind Interface, TypeAggregate.members
returns the concatenation of the root's children and every associated
symbol's children, with no per-name merging and independent of the
requested merge strategy; a root of kind Trait is treated identically. -/
theorem c6_interface_members_concatenate (store : SymbolStore) (root : PhpSymbol)
    (h : root.kind = SymbolKind.Interface ∨ root.kind = SymbolKind.Trait)
    (strategy : MemberMergeStrategy) (fuel : Nat) :
    TypeAggregate.members store root strategy Option.none fuel
      = Option.some (root.children
          ++ ((getAssociated store root).map PhpSymbol.children).flatten) := by
  unfold TypeAggregate.members
  rcases h with h | h <;>
    rw [h] <;>
    simp only [show (SymbolKind.Interface == SymbolKind.Class) = false by decide,
      show (SymbolKind.Trait == SymbolKind.Class) = false by decide,
      show (SymbolKind.Interface == SymbolKind.Interface) = true by decide,
      show (SymbolKind.Trait == SymbolKind.Interface) = false by decide,
      show (SymbolKind.Trait == SymbolKind.Trait) = true by decide,
      Bool.false_eq_true, if_false, if_true] <;>
    rw [interfaceMembers_no_predicate] <;>
    simp [List.flatten_cons]

/-- Witness for C6: an interface extending another interface gathers both
children lists in order, under the Base strategy and zero fuel. -/
theorem c6_witness :
    TypeAggregate.members
      [⟨SymbolKind.Interface, "J", 0, [],
        [⟨SymbolKind.Method, "n", 0, false, Option.none, ""⟩]⟩]
      ⟨SymbolKind.Interface, "I", 0, [⟨"J"⟩],
        [⟨SymbolKind.Method, "m", 0, false, Option.none, ""⟩]⟩
      MemberMergeStrategy.base Option.none 0
      = Option.some
          [⟨SymbolKind.Method, "m", 0, false, Option.none, ""⟩,
           ⟨SymbolKind.Method, "n", 0, false, Option.none, ""⟩] := by
  rw [c6_interface_members_concatenate _ _ (Or.inl rfl)]
  rw [getAssociated]
  rw [getAssociatedLoop_cons_new
    (s := ⟨SymbolKind.Interface, "J", 0, [],
      [⟨SymbolKind.Method, "n", 0, false, Option.none, ""⟩]⟩) _ _ _ _ (by decide) (by decide)]
  simp only [List.nil_append]
  rw [getAssociatedLoop_nil]
  simp

theorem noPrivateEval_nonprivate (m : Member)
    (h : m.modifiers &&& SymbolModifier.Private = 0) :
    ∀ fuel, noPrivateEval m fuel = Option.none := by
  intro fuel
  induction fuel with
  | zero => rfl
  | succ n ih =>
    rw [noPrivateEval]
    rw [if_neg (by simp [h])]
    exact ih


theorem collectClassMembers_nil (first : Bool) (pred : Option (Member → Bool)) (fuel : Nat) :
    collectClassMembers [] first pred fuel = Option.some ([], []) := rfl

theorem collectClassMembers_cons_first (s : PhpSymbol) (rest : List PhpSymbol)
    (pred : Option (Member → Bool)) (fuel : Nat) (h : (s.kind == SymbolKind.Trait) = false) :
    collectClassMembers (s :: rest) true pred fuel
      = match collectClassMembers rest false pred fuel with
        | Option.none => Option.none
        | Option.some (ms, ts) => Option.some (applyPred pred s.children ++ ms, ts) := by
  rw [collectClassMembers.eq_def]
  dsimp only
  rw [h]
  simp only [Bool.false_eq_true, if_false, if_true]

theorem collectClassMembers_cons_rest (s : PhpSymbol) (rest : List PhpSymbol)
    (pred : Option (Member → Bool)) (fuel : Nat) (h : (s.kind == SymbolKind.Trait) = false) :
    collectClassMembers (s :: rest) false pred fuel
      = match filterNoPrivate s.children fuel with
        | Option.none => Option.none
        | Option.some f =>
          match collectClassMembers rest false pred fuel with
          | Option.none => Option.none
          | Option.some (ms, ts) => Option.some (f ++ ms, ts) := by
  rw [collectClassMembers.eq_def]
  dsimp only
  rw [h]
  simp only [Bool.false_eq_true, if_false]

theorem collectClassMembers_cons_trait (s : PhpSymbol) (rest : List PhpSymbol)
    (first : Bool) (pred : Option (Member → Bool)) (fuel : Nat)
    (h : (s.kind == SymbolKind.Trait) = true) :
    collectClassMembers (s :: rest) first pred fuel
      = match collectClassMembers rest false pred fuel with
        | Option.none => Option.none
        | Option.some (ms, ts) => Option.some (ms, s :: ts) := by
  rw [collectClassMembers.eq_def]
  dsimp only
  rw [h]
  simp only [if_true]

/-- Claim C2 (divergence at the failing input): for the class A extends
B, where A has one private property and B has one public method,
evaluating the `noPrivate` visibility predicate on B's public member
re-enters itself with the same argument — the closure reads the
`predicate` variable, which by then holds the closure itself — so
TypeAggregate.members never returns, at every call depth (fuel) and
under every merge strategy, instead of returning the filtered member
list the specification describes. -/
theorem c2_class_members_diverges (fuel : Nat) (strategy : MemberMergeStrategy) :
    TypeAggregate.members
      [⟨SymbolKind.Class, "B", 0, [],
        [⟨SymbolKind.Method, "m", SymbolModifier.Public, false, Option.none, ""⟩]⟩]
      ⟨SymbolKind.Class, "A", 0, [⟨"B"⟩],
        [⟨SymbolKind.Property, "p", SymbolModifier.Private, false, Option.none, ""⟩]⟩
      strategy Option.none fuel
      = Option.none := by
  unfold TypeAggregate.members
  rw [getAssociated]
  rw [getAssociatedLoop_cons_new
    (s := ⟨SymbolKind.Class, "B", 0, [],
      [⟨SymbolKind.Method, "m", SymbolModifier.Public, false, Option.none, ""⟩]⟩)
    _ _ _ _ (by decide) (by decide)]
  simp only [List.nil_append]
  rw [getAssociatedLoop_nil]
  rw [if_pos (by decide)]
  unfold classMembers
  rw [collectClassMembers_cons_first _ _ _ _ (by decide)]
  rw [collectClassMembers_cons_rest _ _ _ _ (by decide)]
  rw [show filterNoPrivate
      [⟨SymbolKind.Method, "m", SymbolModifier.Public, false, Option.none, ""⟩] fuel
      = Option.none by
    rw [filterNoPrivate]
    rw [noPrivateEval_nonprivate _ (by decide) fuel]]

theorem mapLookup_append (m : List (String × Nat)) (k key : String) (v : Nat) :
    mapLookup (m ++ [(k, v)]) key
      = (mapLookup m key).or (if k == key then Option.some v else Option.none) := by
  unfold mapLookup
  rw [List.find?_append]
  cases h : m.find? (fun e => e.1 == key) with
  | none =>
    simp only [h, Option.map_none, Option.none_or]
    by_cases hk : k == key
    · simp [List.find?_cons, hk]
    · simp only [Bool.not_eq_true] at hk
      simp [List.find?_cons, hk]
  | some e =>
    simp [h]

theorem foldl_mergeStep_all_new (strategy : MemberMergeStrategy) (l : List Member) :
    ∀ (st : MergeState),
    (∀ m ∈ l, mapLookup st.map m.name = Option.none) →
    (l.map Member.name).Nodup →
    (l.foldl (mergeStep strategy) st).merged = st.merged ++ l := by
  induction l with
  | nil => intro st _ _; simp
  | cons m t ih =>
    intro st hdisj hnodup
    have hm : mapLookup st.map m.name = Option.none := hdisj m (List.mem_cons_self m t)
    have hstep : mergeStep strategy st m
        = ⟨st.merged ++ [m], st.map ++ [(m.name, st.merged.length)]⟩ := by
      unfold mergeStep
      rw [hm]
    simp only [List.foldl_cons, hstep]
    simp only [List.map_cons, List.nodup_cons] at hnodup
    have hdisj2 : ∀ x ∈ t, mapLookup (st.map ++ [(m.name, st.merged.length)]) x.name
        = Option.none := by
      intro x hx
      rw [mapLookup_append]
      rw [hdisj x (List.mem_cons_of_mem m hx)]
      rw [Option.none_or]
      have hne : m.name ≠ x.name := by
        intro hcontra
        exact hnodup.1 (hcontra ▸ List.mem_map_of_mem Member.name hx)
      simp [hne]
    have := ih ⟨st.merged ++ [m], st.map ++ [(m.name, st.merged.length)]⟩ hdisj2 hnodup.2
    simpa using this

theorem mergeMembers_nodup_names (l : List Member)
    (h : (l.map Member.name).Nodup) (strategy : MemberMergeStrategy) :
    mergeMembers l strategy = l := by
  unfold mergeMembers
  by_cases hs : strategy = MemberMergeStrategy.none
  · rw [if_pos hs]
  · rw [if_neg hs]
    have := foldl_mergeStep_all_new strategy l ⟨[], []⟩ (by intro m _; rfl) h
    simpa using this

theorem override_fold_find (l : List Member) :
    ∀ (st : MergeState),
    (∀ m ∈ st.merged, m.modifiers &&& SymbolModifier.Magic = 0) →
    (∀ m ∈ l, m.modifiers &&& SymbolModifier.Magic = 0) →
    (∀ k, (mapLookup st.map k).isSome
      = (st.merged.find? (fun m => m.name == k)).isSome) →
    ∀ name, ((l.foldl (mergeStep MemberMergeStrategy.override) st).merged.find?
        (fun m => m.name == name))
      = (st.merged.find? (fun m => m.name == name)).or
          (l.find? (fun m => m.name == name)) := by
  induction l with
  | nil =>
    intro st _ _ _ name
    simp
  | cons m t ih =>
    intro st hstmagic hlmagic hinv name
    simp only [List.foldl_cons]
    cases hlook : mapLookup st.map m.name with
    | some i =>
      have hstep : mergeStep MemberMergeStrategy.override st m = st := by
        unfold mergeStep
        rw [hlook]
        dsimp only
        cases hg : st.merged[i]? with
        | none => rfl
        | some kept =>
          have hkeptmem : kept ∈ st.merged := by
            have := List.getElem?_eq_some_iff.mp hg
            rcases this with ⟨hlt, hget⟩
            exact hget ▸ List.getElem_mem hlt
          have hkept := hstmagic kept hkeptmem
          dsimp only
          rw [if_neg]
          rintro (⟨h1, _⟩ | ⟨h1, _⟩ | h1)
          · exact h1 hkept
          · exact absurd h1 (by decide)
          · exact absurd h1 (by decide)
      rw [hstep]
      rw [ih st hstmagic (fun x hx => hlmagic x (List.mem_cons_of_mem m hx)) hinv name]
      have hfound : (st.merged.find? (fun x => x.name == m.name)).isSome = true := by
        rw [← hinv]
        rw [hlook]
        rfl
      by_cases hname : (m.name == name) = true
      · have heq : m.name = name := by simpa using hname
        subst heq
        rcases Option.isSome_iff_exists.mp hfound with ⟨x, hx⟩
        rw [hx]
        rfl
      · rw [List.find?_cons_of_neg (p := fun x => x.name == name) t hname]
    | none =>
      have hstep : mergeStep MemberMergeStrategy.override st m
          = ⟨st.merged ++ [m], st.map ++ [(m.name, st.merged.length)]⟩ := by
        unfold mergeStep
        rw [hlook]
      rw [hstep]
      have hnotfound : st.merged.find? (fun x => x.name == m.name) = Option.none := by
        have := hinv m.name
        rw [hlook] at this
        cases hf : st.merged.find? (fun x => x.name == m.name) with
        | none => rfl
        | some x =>
          rw [hf] at this
          exact absurd this.symm (by simp)
      have hinv2 : ∀ k, (mapLookup (st.map ++ [(m.name, st.merged.length)]) k).isSome
          = ((st.merged ++ [m]).find? (fun x => x.name == k)).isSome := by
        intro k
        rw [mapLookup_append, List.find?_append]
        rw [Option.isSome_or, Option.isSome_or, hinv k]
        congr 1
        by_cases hk : (m.name == k) = true
        · simp [List.find?_cons, hk]
        · simp only [Bool.not_eq_true] at hk
          simp [List.find?_cons, hk]
      have hmagic2 : ∀ x ∈ st.merged ++ [m], x.modifiers &&& SymbolModifier.Magic = 0 := by
        intro x hx
        rcases List.mem_append.mp hx with hx | hx
        · exact hstmagic x hx
        · simp only [List.mem_singleton] at hx
          subst hx
          exact hlmagic x (List.mem_cons_self x t)
      rw [ih ⟨st.merged ++ [m], st.map ++ [(m.name, st.merged.length)]⟩ hmagic2
        (fun x hx => hlmagic x (List.mem_cons_of_mem m hx)) hinv2 name]
      dsimp only
      rw [List.find?_append]
      by_cases hname : (m.name == name) = true
      · have heq : m.name = name := by simpa using hname
        subst heq
        rw [hnotfound, Option.none_or]
        rw [List.find?_cons_of_pos (p := fun x => x.name == m.name) t (by simp)]
        rw [show List.find? (fun x => x.name == m.name) [m] = Option.some m by
          simp [List.find?_cons]]
        rfl
      · rw [List.find?_cons_of_neg (p := fun x => x.name == name) t hname]
        have hnf : (m.name == name) = false := by simpa using hname
        rw [show List.find? (fun x => x.name == name) [m] = Option.none by
          simp [List.find?_cons, hnf]]
        rw [Option.or_none]

theorem mergeMembers_magic_pair (strategy : MemberMergeStrategy)
    (hstrat : strategy ≠ MemberMergeStrategy.none) (a b : Member)
    (hname : a.name = b.name) (hmagic : a.modifiers &&& SymbolModifier.Magic ≠ 0)
    (hplain : b.modifiers &&& SymbolModifier.Magic = 0) :
    mergeMembers [a, b] strategy = [b] := by
  unfold mergeMembers
  rw [if_neg hstrat]
  simp only [List.foldl_cons, List.foldl_nil]
  have h1 : mergeStep strategy ⟨[], []⟩ a = ⟨[a], [(a.name, 0)]⟩ := by
    unfold mergeStep
    simp [mapLookup]
  rw [h1]
  unfold mergeStep
  simp [mapLookup, hname, hmagic, hplain]

/-- Claim C5 counterexample: a class whose children declare first a magic
property x (from a docblock tag) and then a real property x.  Under the
Override strategy, members keeps the real (second) member, not the first
member encountered for the name x, refuting the claim as stated. -/
theorem c5_counterexample :
    TypeAggregate.members []
      ⟨SymbolKind.Class, "C", 0, [],
        [⟨SymbolKind.Property, "x", SymbolModifier.Magic, false, Option.none, ""⟩,
         ⟨SymbolKind.Property, "x", SymbolModifier.Public, false, Option.none, ""⟩]⟩
      MemberMergeStrategy.override Option.none 0
      = Option.some [⟨SymbolKind.Property, "x", SymbolModifier.Public, false, Option.none, ""⟩]
    ∧ List.find? (fun m => m.name == "x")
        ([⟨SymbolKind.Property, "x", SymbolModifier.Magic, false, Option.none, ""⟩,
          ⟨SymbolKind.Property, "x", SymbolModifier.Public, false, Option.none, ""⟩] : List Member)
      = Option.some ⟨SymbolKind.Property, "x", SymbolModifier.Magic, false, Option.none, ""⟩
    ∧ (⟨SymbolKind.Property, "x", SymbolModifier.Magic, false, Option.none, ""⟩ : Member)
      ≠ ⟨SymbolKind.Property, "x", SymbolModifier.Public, false, Option.none, ""⟩ := by
  refine ⟨?_, by decide, by decide⟩
  unfold TypeAggregate.members
  rw [show getAssociated []
      ⟨SymbolKind.Class, "C", 0, [],
        [⟨SymbolKind.Property, "x", SymbolModifier.Magic, false, Option.none, ""⟩,
         ⟨SymbolKind.Property, "x", SymbolModifier.Public, false, Option.none, ""⟩]⟩ = [] by
    rw [getAssociated]
    exact getAssociatedLoop_nil _ _]
  decide

/-- Claim C5 (amended): under the Override strategy the merge keeps, for
each member name, the first member encountered in the root-first walk,
except that a later non-magic member replaces a previously kept magic
member of the same name; consequently, for a class C with no ancestors
and no traits whose children have pairwise distinct names,
members(Override) equals C's own children list. -/
theorem c5_override_keeps_first :
    (∀ l : List Member, (∀ m ∈ l, m.modifiers &&& SymbolModifier.Magic = 0) →
      ∀ name, (mergeMembers l MemberMergeStrategy.override).find? (fun m => m.name == name)
        = l.find? (fun m => m.name == name))
    ∧ (∀ a b : Member, a.name = b.name →
        a.modifiers &&& SymbolModifier.Magic ≠ 0 →
        b.modifiers &&& SymbolModifier.Magic = 0 →
        mergeMembers [a, b] MemberMergeStrategy.override = [b])
    ∧ (∀ (store : SymbolStore) (root : PhpSymbol),
        root.kind = SymbolKind.Class → root.associated = [] →
        (root.children.map Member.name).Nodup →
        ∀ fuel, TypeAggregate.members store root MemberMergeStrategy.override
            Option.none fuel
          = Option.some root.children) := by
  refine ⟨?_, ?_, ?_⟩
  · intro l hmagic name
    unfold mergeMembers
    rw [if_neg (by decide)]
    rw [override_fold_find l ⟨[], []⟩ (by intro m hm; simp at hm) hmagic
      (by intro k; rfl) name]
    rfl
  · intro a b hname hmagic hplain
    exact mergeMembers_magic_pair MemberMergeStrategy.override (by decide) a b
      hname hmagic hplain
  · intro store root h1 h2 h3 fuel
    unfold TypeAggregate.members
    rw [show getAssociated store root = [] by
      rw [getAssociated, h2]
      exact getAssociatedLoop_nil _ _]
    rw [if_pos (by rw [h1]; decide)]
    unfold classMembers
    rw [collectClassMembers_cons_first _ _ _ _ (by rw [h1]; decide)]
    rw [collectClassMembers_nil]
    dsimp only
    rw [show traitMembersNoPrivate [] fuel = Option.some [] from rfl]
    dsimp only
    rw [show applyPred Option.none root.children = root.children from rfl]
    simp only [List.append_nil]
    rw [mergeMembers_nodup_names root.children h3]

/-- Witness for C5 (amended): a class with two distinctly named children
(one of them magic) keeps exactly its own children list under Override,
and the no-magic first-wins conjunct evaluated on a two-member list. -/
theorem c5_witness :
    TypeAggregate.members []
      ⟨SymbolKind.Class, "D", 0, [],
        [⟨SymbolKind.Method, "m", SymbolModifier.Public, false, Option.none, ""⟩,
         ⟨SymbolKind.Property, "x", SymbolModifier.Magic, false, Option.none, ""⟩]⟩
      MemberMergeStrategy.override Option.none 0
      = Option.some
          [⟨SymbolKind.Method, "m", SymbolModifier.Public, false, Option.none, ""⟩,
           ⟨SymbolKind.Property, "x", SymbolModifier.Magic, false, Option.none, ""⟩]
    ∧ (mergeMembers
        [⟨SymbolKind.Method, "m", SymbolModifier.Public, false, Option.none, ""⟩,
         ⟨SymbolKind.Method, "m", SymbolModifier.Protected, false, Option.none, ""⟩]
        MemberMergeStrategy.override).find? (fun m => m.name == "m")
      = Option.some ⟨SymbolKind.Method, "m", SymbolModifier.Public, false, Option.none, ""⟩ := by
  constructor
  · exact c5_override_keeps_first.2.2 []
      ⟨SymbolKind.Class, "D", 0, [],
        [⟨SymbolKind.Method, "m", SymbolModifier.Public, false, Option.none, ""⟩,
         ⟨SymbolKind.Property, "x", SymbolModifier.Magic, false, Option.none, ""⟩]⟩
      rfl rfl (by decide) 0
  · rw [c5_override_keeps_first.1
      [⟨SymbolKind.Method, "m", SymbolModifier.Public, false, Option.none, ""⟩,
       ⟨SymbolKind.Method, "m", SymbolModifier.Protected, false, Option.none, ""⟩]
      (by decide) "m"]
    decide

theorem takeWhile_append_stop {α : Type} (q : α → Bool) (l1 l2 : List α) (a : α)
    (hq : q a = false) :
    (l1 ++ a :: l2).takeWhile q = l1.takeWhile q := by
  induction l1 with
  | nil => simp [List.takeWhile_cons, hq]
  | cons x xs ih =>
    cases hx : q x with
    | true => simp [List.takeWhile_cons, hx, ih]
    | false => simp [List.takeWhile_cons, hx]

theorem lastSegment_append (p x : String) :
    lastSegment (p ++ "\\" ++ x) = lastSegment x := by
  unfold lastSegment
  congr 1
  have h1 : (p ++ "\\" ++ x).toList = p.toList ++ '\\' :: x.toList := by
    simp [String.toList]
  rw [h1]
  rw [List.reverse_append]
  rw [show ('\\' :: x.toList).reverse = x.toList.reverse ++ ['\\'] by simp]
  rw [List.append_assoc]
  simp only [List.singleton_append]
  rw [takeWhile_append_stop _ _ _ '\\' (by decide)]

theorem addRuleMany_spec (rs : List ImportRule) :
    ∀ t : ImportTable, t.addRuleMany rs = ⟨t.rules ++ rs.map resolveRule⟩ := by
  induction rs with
  | nil => intro t; simp [ImportTable.addRuleMany]
  | cons r rest ih =>
    intro t
    unfold ImportTable.addRuleMany at ih ⊢
    simp only [List.foldl_cons]
    rw [ih]
    simp [ImportTable.addRule, resolveRule]

/-- Claim C7: reading a use-group statement with a non-empty group
prefix P adds, for each inner element with non-empty path p, optional
alias a and element flag f, an import rule whose target FQN is P\\p and
whose alias is a (or the element's own — last — name when no alias is
given); the rule's kind comes from the statement-level flag when that
maps to a kind, and otherwise (a mixed group) from the element's own
flag.  The theorem threads each element through _postOrderUseElement
and the list through _postOrderUseGroup into the import table, covering
both kind branches. -/
theorem c7_use_group_rules (p : String) (hp : p ≠ "")
    (elems : List (String × Option String × Nat)) (stmtFlag : Nat)
    (table : ImportTable)
    (helems : ∀ e ∈ elems, e.1 ≠ "") :
    postOrderUseGroup (Option.some p)
        (elems.filterMap (fun e => postOrderUseElement (Option.some e.1) e.2.1 e.2.2))
        stmtFlag table
      = ⟨table.rules ++ elems.map (fun e =>
          ⟨(match e.2.1 with
             | Option.some a => a
             | Option.none => lastSegment e.1),
           p ++ "\\" ++ e.1,
           if useFlagToSymbolKind stmtFlag ≠ 0 then useFlagToSymbolKind stmtFlag
           else useFlagToSymbolKind e.2.2⟩)⟩ := by
  have hfm : elems.filterMap (fun e => postOrderUseElement (Option.some e.1) e.2.1 e.2.2)
      = elems.map (fun e => ⟨useFlagToSymbolKind e.2.2, e.1, e.2.1⟩) := by
    induction elems with
    | nil => rfl
    | cons e rest ih =>
      rw [List.filterMap_cons]
      rw [show postOrderUseElement (Option.some e.1) e.2.1 e.2.2
          = Option.some ⟨useFlagToSymbolKind e.2.2, e.1, e.2.1⟩ by
        unfold postOrderUseElement
        dsimp only
        rw [if_neg (helems e (List.mem_cons_self e rest))]]
      rw [ih (fun x hx => helems x (List.mem_cons_of_mem e hx))]
      rfl
  rw [hfm]
  unfold postOrderUseGroup
  rw [addRuleMany_spec]
  congr 1
  simp only [List.map_map]
  congr 1
  apply List.map_congr_left
  intro e he
  simp only [Function.comp]
  rw [if_neg hp]
  by_cases hflag : useFlagToSymbolKind stmtFlag ≠ 0
  · rw [if_pos hflag, if_pos hflag]
    unfold resolveRule
    cases ha : e.2.1 with
    | none =>
      simp only
      rw [lastSegment_append]
    | some a =>
      simp only
  · rw [if_neg hflag, if_neg hflag]
    unfold resolveRule
    cases ha : e.2.1 with
    | none =>
      simp only
      rw [lastSegment_append]
    | some a =>
      simp only


/-- Witness for C7: a class-flagged group with prefix P and inner list
[a\\b as A, c] yields the rules A -> P\\a\\b and c -> P\\c, both of Class
kind; and a mixed group whose statement flag maps to no kind keeps each
element's own kind (Function for a\\b as A, Constant for c). -/
theorem c7_witness :
    (postOrderUseGroup (Option.some "P")
        ([("a\\b", Option.some "A", NonTerminalFlag.UseClass),
          ("c", Option.none, NonTerminalFlag.UseClass)].filterMap
          (fun e => postOrderUseElement (Option.some e.1) e.2.1 e.2.2))
        NonTerminalFlag.UseClass ⟨[]⟩
      = ⟨[⟨"A", "P\\a\\b", SymbolKind.Class⟩, ⟨"c", "P\\c", SymbolKind.Class⟩]⟩)
    ∧ (postOrderUseGroup (Option.some "P")
        ([("a\\b", Option.some "A", NonTerminalFlag.UseFunction),
          ("c", Option.none, NonTerminalFlag.UseConstant)].filterMap
          (fun e => postOrderUseElement (Option.some e.1) e.2.1 e.2.2))
        0 ⟨[]⟩
      = ⟨[⟨"A", "P\\a\\b", SymbolKind.Function⟩, ⟨"c", "P\\c", SymbolKind.Constant⟩]⟩) := by
  constructor
  · rw [c7_use_group_rules "P" (by decide) _ _ _ (by decide)]
    decide
  · rw [c7_use_group_rules "P" (by decide) _ _ _ (by decide)]
    decide

theorem lastParamIdx_eq_none_iff (params : List Member) (n : String) :
    lastParamIdx params n = Option.none ↔ ∀ p ∈ params, (p.name == n) = false := by
  induction params with
  | nil => simp [lastParamIdx]
  | cons p rest ih =>
    rw [lastParamIdx]
    cases hr : lastParamIdx rest n with
    | some i =>
      dsimp only
      constructor
      · intro h
        exact absurd h (by simp)
      · intro h
        have h2 : lastParamIdx rest n = Option.none :=
          ih.mpr (fun q hq => h q (List.mem_cons_of_mem p hq))
        rw [hr] at h2
        exact absurd h2 (by simp)
    | none =>
      dsimp only
      by_cases hp : (p.name == n) = true
      · rw [if_pos hp]
        constructor
        · intro h
          exact absurd h (by simp)
        · intro h
          exact absurd (h p (List.mem_cons_self p rest)) (by simp [hp])
      · have hpf : (p.name == n) = false := by simpa using hp
        rw [if_neg (by simp [hpf])]
        constructor
        · intro _ q hq
          rcases List.mem_cons.mp hq with hq | hq
          · subst hq; exact hpf
          · exact (ih.mp hr) q hq
        · intro _
          rfl

theorem lastParamIdx_some_name (params : List Member) (n : String) :
    ∀ i, lastParamIdx params n = Option.some i →
      ∃ p, params[i]? = Option.some p ∧ (p.name == n) = true := by
  induction params with
  | nil => intro i h; simp [lastParamIdx] at h
  | cons p rest ih =>
    intro i h
    rw [lastParamIdx] at h
    cases hr : lastParamIdx rest n with
    | some j =>
      rw [hr] at h
      dsimp only at h
      cases h
      obtain ⟨q, hq1, hq2⟩ := ih j hr
      exact ⟨q, by simpa using hq1, hq2⟩
    | none =>
      rw [hr] at h
      dsimp only at h
      by_cases hp : (p.name == n) = true
      · rw [if_pos hp] at h
        cases h
        exact ⟨p, by simp, hp⟩
      · rw [if_neg hp] at h
        exact absurd h (by simp)

theorem foldl_applyDocTag_spec (tags : List Tag) :
    ∀ (s : Member) (params : List Member), (params.map Member.name).Nodup →
    tags.foldl applyDocTag (s, params)
      = ((tags.filter (fun t => t.tagName == "@return")).foldl returnTagStep s,
         params.map (fun p =>
           (tags.filter (fun t => t.tagName == "@param" && t.name == p.name)).foldl
             paramTagStep p)) := by
  induction tags with
  | nil =>
    intro s params _
    simp
  | cons tag rest ih =>
    intro s params hnodup
    rw [List.foldl_cons]
    by_cases ht : tag.tagName = "@param"
    · have hret : (tag.tagName == "@return") = false := by simp [ht]
      cases hlook : lastParamIdx params tag.name with
      | none =>
        have hnomatch := (lastParamIdx_eq_none_iff params tag.name).mp hlook
        have hstep : applyDocTag (s, params) tag = (s, params) := by
          unfold applyDocTag
          dsimp only
          rw [if_pos ht, hlook]
        rw [hstep, ih s params hnodup]
        refine Prod.ext ?_ ?_
        · try dsimp only
          rw [List.filter_cons, hret]
          simp only [Bool.false_eq_true, if_false]
        · try dsimp only
          apply List.map_congr_left
          intro p hp
          have hpn : (tag.name == p.name) = false := by
            have := hnomatch p hp
            simp only [beq_eq_false_iff_ne] at this ⊢
            exact fun hc => this hc.symm
          rw [List.filter_cons]
          rw [show (tag.tagName == "@param" && tag.name == p.name) = false by
            rw [hpn, Bool.and_false]]
          simp only [Bool.false_eq_true, if_false]
      | some i =>
        obtain ⟨p0, hp0get, hp0name⟩ := lastParamIdx_some_name params tag.name i hlook
        have hilt : i < params.length := (List.getElem?_eq_some_iff.mp hp0get).1
        have hstep : applyDocTag (s, params) tag
            = (s, params.set i (paramTagStep p0 tag)) := by
          unfold applyDocTag
          dsimp only
          rw [if_pos ht, hlook]
          dsimp only
          rw [hp0get]
          rfl
        rw [hstep]
        have hnames : (params.set i (paramTagStep p0 tag)).map Member.name
            = params.map Member.name := by
          rw [List.map_set]
          apply List.ext_getElem?
          intro j
          rw [List.getElem?_set]
          by_cases hij : i = j
          · subst hij
            rw [if_pos rfl, if_pos (by simpa using hilt)]
            rw [List.getElem?_map, hp0get]
            rfl
          · rw [if_neg hij]
        rw [ih s _ (by rw [hnames]; exact hnodup)]
        refine Prod.ext ?_ ?_
        · try dsimp only
          rw [List.filter_cons, hret]
          simp only [Bool.false_eq_true, if_false]
        · try dsimp only
          apply List.ext_getElem?
          intro j
          rw [List.getElem?_map, List.getElem?_map, List.getElem?_set]
          by_cases hij : i = j
          · subst hij
            rw [if_pos rfl, if_pos hilt]
            rw [hp0get]
            simp only [Option.map_some']
            congr 1
            rw [List.filter_cons]
            rw [show (paramTagStep p0 tag).name = p0.name from rfl]
            rw [if_pos (show (tag.tagName == "@param" && tag.name == p0.name) = true by
              rw [show (tag.tagName == "@param") = true by simp [ht]]
              rw [show (tag.name == p0.name) = true by
                simp only [beq_iff_eq] at hp0name ⊢
                exact hp0name.symm]
              rfl)]
            rw [List.foldl_cons]
          · rw [if_neg hij]
            cases hpj : params[j]? with
            | none => rfl
            | some pj =>
              simp only [Option.map_some']
              congr 1
              have hjlt : j < params.length := (List.getElem?_eq_some_iff.mp hpj).1
              have hilt2 : i < (List.map Member.name params).length := by simpa using hilt
              have hjlt2 : j < (List.map Member.name params).length := by simpa using hjlt
              have hne : (tag.name == pj.name) = false := by
                simp only [beq_eq_false_iff_ne]
                intro hc
                have h1 : (List.map Member.name params)[i] = tag.name := by
                  rw [List.getElem_map]
                  rw [show params[i] = p0 from (List.getElem?_eq_some_iff.mp hp0get).2]
                  simpa using hp0name
                have h2 : (List.map Member.name params)[j] = tag.name := by
                  rw [List.getElem_map]
                  rw [show params[j] = pj from (List.getElem?_eq_some_iff.mp hpj).2]
                  exact hc.symm
                have := hnodup.getElem_inj_iff.mp (h1.trans h2.symm)
                exact hij this
              rw [List.filter_cons]
              rw [show (tag.tagName == "@param" && tag.name == pj.name) = false by
                rw [hne, Bool.and_false]]
              simp only [Bool.false_eq_true, if_false]
    · by_cases hr2 : tag.tagName = "@return"
      · have hstep : applyDocTag (s, params) tag = (returnTagStep s tag, params) := by
          unfold applyDocTag
          dsimp only
          rw [if_neg ht, if_pos hr2]
          rfl
        rw [hstep, ih _ params hnodup]
        refine Prod.ext ?_ ?_
        · try dsimp only
          rw [List.filter_cons]
          rw [show (tag.tagName == "@return") = true by simp [hr2]]
          rw [if_pos rfl, List.foldl_cons]
        · try dsimp only
          apply List.map_congr_left
          intro p _
          rw [List.filter_cons]
          rw [show (tag.tagName == "@param" && tag.name == p.name) = false by
            rw [show (tag.tagName == "@param") = false by simp [ht], Bool.false_and]]
          simp only [Bool.false_eq_true, if_false]
      · have hstep : applyDocTag (s, params) tag = (s, params) := by
          unfold applyDocTag
          dsimp only
          rw [if_neg ht, if_neg hr2]
        rw [hstep, ih s params hnodup]
        refine Prod.ext ?_ ?_
        · try dsimp only
          rw [List.filter_cons]
          rw [show (tag.tagName == "@return") = false by simp [hr2]]
          simp only [Bool.false_eq_true, if_false]
        · try dsimp only
          apply List.map_congr_left
          intro p _
          rw [List.filter_cons]
          rw [show (tag.tagName == "@param" && tag.name == p.name) = false by
            rw [show (tag.tagName == "@param") = false by simp [ht], Bool.false_and]]
          simp only [Bool.false_eq_true, if_false]

/-- Claim C8: when the symbol reader attaches a parsed docblock to a
function or method (whose parameter names are distinct, as the language
guarantees), the result is exactly: the symbol's description becomes the
summary and its result type is folded over the @return tags — set to the
tag's type when undefined, merged (union) with it otherwise (setOrMerge)
— while each parameter is folded over the @param tags naming it, each
such tag setting the description and set-or-merging the type.  An @param
tag naming no existing parameter changes nothing (second conjunct). -/
theorem c8_docblock_set_or_union (s : Member) (params : List Member) (phpDoc : PhpDoc)
    (hnodup : (params.map Member.name).Nodup) :
    assignFunctionOrMethodPhpDoc s params (Option.some phpDoc)
      = ((phpDoc.tags.filter (fun t => t.tagName == "@return")).foldl returnTagStep
           { s with description := phpDoc.summary },
         params.map (fun p =>
           (phpDoc.tags.filter (fun t => t.tagName == "@param" && t.name == p.name)).foldl
             paramTagStep p))
    ∧ (∀ tag : Tag, tag.tagName = "@param" →
        (∀ p ∈ params, p.name ≠ tag.name) →
        applyDocTag (s, params) tag = (s, params)) := by
  constructor
  · unfold assignFunctionOrMethodPhpDoc
    exact foldl_applyDocTag_spec phpDoc.tags _ params hnodup
  · intro tag ht hnone
    unfold applyDocTag
    dsimp only
    rw [if_pos ht]
    rw [(lastParamIdx_eq_none_iff params tag.name).mpr
      (fun p hp => by simpa using hnone p hp)]

/-- Witness for C8: a function f(a, b : int) documented with
@param string a, @param int zz (no such parameter), @return bool and
@param float b: a's type is set, b's type becomes the union int|float,
zz changes nothing, and the return type is set to bool. -/
theorem c8_witness :
    assignFunctionOrMethodPhpDoc
      ⟨SymbolKind.Method, "f", SymbolModifier.Public, false, Option.none, ""⟩
      [⟨SymbolKind.Parameter, "a", 0, false, Option.none, ""⟩,
       ⟨SymbolKind.Parameter, "b", 0, false, Option.some ⟨["int"]⟩, ""⟩]
      (Option.some ⟨"sum",
        [⟨"@param", "a", "string", "first"⟩,
         ⟨"@param", "zz", "int", "ignored"⟩,
         ⟨"@return", "", "bool", ""⟩,
         ⟨"@param", "b", "float", "second"⟩]⟩)
      = (⟨SymbolKind.Method, "f", SymbolModifier.Public, false,
           Option.some ⟨["bool"]⟩, "sum"⟩,
         [⟨SymbolKind.Parameter, "a", 0, false, Option.some ⟨["string"]⟩, "first"⟩,
          ⟨SymbolKind.Parameter, "b", 0, false,
            Option.some ⟨["int", "float"]⟩, "second"⟩]) := by
  rw [(c8_docblock_set_or_union
    ⟨SymbolKind.Method, "f", SymbolModifier.Public, false, Option.none, ""⟩
    [⟨SymbolKind.Parameter, "a", 0, false, Option.none, ""⟩,
     ⟨SymbolKind.Parameter, "b", 0, false, Option.some ⟨["int"]⟩, ""⟩]
    ⟨"sum",
      [⟨"@param", "a", "string", "first"⟩,
       ⟨"@param", "zz", "int", "ignored"⟩,
       ⟨"@return", "", "bool", ""⟩,
       ⟨"@param", "b", "float", "second"⟩]⟩
    (by decide)).1]
  decide
